import Mathlib

/-!
Verification of the OBJ geometry importer (src/import_obj.py) against its
natural-language specification.  The Python functions relevant to the claims
are shallowly embedded as executable Lean definitions: Python byte strings
become Lean strings, machine floats become exact rationals, Python
exceptions become Except, and the sentinel Ellipsis used as the
"absent index" marker becomes Option.none.  External collaborators
(ast.literal_eval, bpy_extras.ngon_tessellate) are modelled as oracle
parameters constrained only by the properties the code itself relies on.
-/

namespace ImportObj

/-- Resolution of one raw face-vertex index token, from import_obj.py
(load, face branch): idx = int(tok) - 1; resolved = idx + len(pool) + 1
when idx < 0, else idx.  The pool length is the length of the relevant
vertex-attribute pool at the moment the token is parsed. -/
def resolveIdx (tok : Int) (poolLen : Nat) : Int :=
  let idx := tok - 1
  if idx < 0 then idx + poolLen + 1 else idx

/-- Events interleaved during the single parse pass: a position appended to
the pool (a v-line, possibly between the physical lines of a multi-line
face statement), or a face-vertex index token of an f-directive parsed. -/
inductive GeoEvent
| vert
| faceTok (tok : Int)

/-- Parse-time state for index resolution: the current pool length and the
list of resolved indices accumulated so far (source: verts_loc and
face_vert_loc_indices in load). -/
structure TokState where
  poolLen : Nat
  resolved : List Int

/-- One step of the parse pass: v appends to the pool, a face token is
resolved immediately against the current pool length and stored. -/
def tokStep (st : TokState) : GeoEvent → TokState
| .vert => { st with poolLen := st.poolLen + 1 }
| .faceTok t => { st with resolved := st.resolved ++ [resolveIdx t st.poolLen] }

/-- Running the parse pass over a list of events. -/
def tokRun (st : TokState) (evs : List GeoEvent) : TokState :=
  evs.foldl tokStep st

/-- The per-token resolutions of an event trace, each token resolved against
the pool length current at its own position in the trace. -/
def resolvedOf (len : Nat) : List GeoEvent → List Int
| [] => []
| .vert :: evs => resolvedOf (len + 1) evs
| .faceTok t :: evs => resolveIdx t len :: resolvedOf len evs

theorem tokRun_resolved (st : TokState) (evs : List GeoEvent) :
    (tokRun st evs).resolved = st.resolved ++ resolvedOf st.poolLen evs := by
  induction evs generalizing st with
  | nil => simp [tokRun, resolvedOf]
  | cons e evs ih =>
    cases e with
    | vert =>
      simp only [tokRun, List.foldl_cons] at *
      rw [show tokStep st GeoEvent.vert = { st with poolLen := st.poolLen + 1 } from rfl]
      rw [ih]
      rfl
    | faceTok t =>
      simp only [tokRun, List.foldl_cons] at *
      rw [show tokStep st (GeoEvent.faceTok t)
            = { st with resolved := st.resolved ++ [resolveIdx t st.poolLen] } from rfl]
      rw [ih]
      simp [resolvedOf]

/-- C1: a positive 1-based index i resolves to pool position i-1; a negative
index -k resolves to (pool length at parse time) - k; and in any interleaving
of pool appends and face tokens, each token is resolved against the pool
length current when it is parsed, with already-resolved entries never
revisited by later appends. -/
theorem C1_index_resolution :
    (∀ (i : Int) (len : Nat), 0 < i → resolveIdx i len = i - 1) ∧
    (∀ (k : Int) (len : Nat), 0 < k → resolveIdx (-k) len = (len : Int) - k) ∧
    (∀ (st : TokState) (evs : List GeoEvent),
      (tokRun st evs).resolved = st.resolved ++ resolvedOf st.poolLen evs) := by
  refine ⟨?_, ?_, tokRun_resolved⟩
  · intro i len hi
    simp only [resolveIdx]
    rw [if_neg]
    omega
  · intro k len hk
    simp only [resolveIdx]
    rw [if_pos]
    · ring
    · omega

/-- Witness for C1 at concrete inputs. -/
theorem C1_index_resolution_witness :
    resolveIdx 3 0 = 3 - 1 ∧ resolveIdx (-2) 5 = (5 : Int) - 2 :=
  ⟨C1_index_resolution.1 3 0 (by norm_num),
   C1_index_resolution.2.1 2 5 (by norm_num)⟩

/-- A face record as built by load/create_face: the eight items of the face
tuple.  The Ellipsis marker used for an absent normal/texcoord/color index
is Option.none; the mutable face_invalid_blenpoly list is modelled by a
boolean (non-empty iff true). -/
structure OFace where
  locIdx : List Nat
  norIdx : List (Option Nat)
  texIdx : List (Option Nat)
  colIdx : List (Option Nat)
  mat : Option String
  sg : Option String
  obj : Option String
  invalid : Bool
deriving DecidableEq

/-- First-pass repeated-vertex detection from load's face token loop:
once flagged, the usage set is no longer extended, and the flag is sticky. -/
def firstPassStep (st : List Nat × Bool) (v : Nat) : List Nat × Bool :=
  if st.2 then st
  else if v ∈ st.1 then (st.1, true)
  else (v :: st.1, false)

/-- Whether the first pass over the position indices of a face flags a
repeated vertex (load: face_items_usage / face_invalid_blenpoly). -/
def hasRepeatVert (poss : List Nat) : Bool :=
  (poss.foldl firstPassStep ([], false)).2

/-- Normalized edge key: the smaller position index first (source:
(prev, v) if prev < v else (v, prev)). -/
def edgeKey (a b : Nat) : Nat × Nat :=
  if a < b then (a, b) else (b, a)

/-- The cyclic normalized edge keys of a face: prev starts at the last
position index, then one key per position index. -/
def faceEdgeKeys (poss : List Nat) : List (Nat × Nat) :=
  if poss = [] then []
  else List.zipWith edgeKey (poss.getLastD 0 :: poss.dropLast) poss

/-- Second-pass repeated-edge detection from load's end-of-face re-check:
walk the cyclic edge keys, flag (and stop) on the first key seen twice. -/
def edgeDupStep (st : List (Nat × Nat) × Bool) (k : Nat × Nat) : List (Nat × Nat) × Bool :=
  if st.2 then st
  else if k ∈ st.1 then (st.1, true)
  else (k :: st.1, false)

/-- Whether the end-of-face re-check finds a repeated cyclic edge key. -/
def hasRepeatEdge (poss : List Nat) : Bool :=
  ((faceEdgeKeys poss).foldl edgeDupStep ([], false)).2

/-- The final parse-time invalid flag of a face: the first pass must have
flagged a repeated vertex, and then the re-check (which first clears the
flag) must find a repeated edge key (load, end of the f branch). -/
def faceInvalid (poss : List Nat) : Bool :=
  hasRepeatVert poss && hasRepeatEdge poss

/-- Outcome of the per-face pass of create_mesh for one input face. -/
inductive FaceOut
| dropped
| polyline (es : List (Nat × Nat))
| single (f : OFace)
| triangles (ts : List OFace)
deriving DecidableEq

/-- Consecutive position pairs of a polyline (create_mesh, edges.extend). -/
def consecPairs (l : List Nat) : List (Nat × Nat) :=
  l.zip l.tail

/-- One triangle produced from an invalid ngon and one tessellator triple
(create_mesh, faces.extend block): position/normal/texcoord/color indices
are looked up in the parent face's lists at the triple's positions, the
optional lists staying empty when the parent's are empty; material,
smoothing group and object are inherited; the invalid flag is cleared. -/
def triOf (f : OFace) (t : Nat × Nat × Nat) : OFace :=
  { locIdx := [f.locIdx.getD t.1 0, f.locIdx.getD t.2.1 0, f.locIdx.getD t.2.2 0]
    norIdx := if f.norIdx = [] then []
              else [f.norIdx.getD t.1 none, f.norIdx.getD t.2.1 none, f.norIdx.getD t.2.2 none]
    texIdx := if f.texIdx = [] then []
              else [f.texIdx.getD t.1 none, f.texIdx.getD t.2.1 none, f.texIdx.getD t.2.2 none]
    colIdx := if f.colIdx = [] then []
              else [f.colIdx.getD t.1 none, f.colIdx.getD t.2.1 none, f.colIdx.getD t.2.2 none]
    mat := f.mat
    sg := f.sg
    obj := f.obj
    invalid := false }

/-- The per-face decision of create_mesh's reverse loop, with the external
tessellator bpy_extras.mesh_utils.ngon_tessellate abstracted as an oracle
returning triples of positions into the face's own vertex list: a
single-position face is dropped; a face with exactly one normal slot or two
positions is a polyline (its consecutive edges are emitted, the face is
dropped); an invalid face with more than 3 positions is replaced by the
tessellator's triangles; an invalid face with 3 positions is dropped; any
other face is kept as a single face. -/
def processFace (tess : List Nat → List (Nat × Nat × Nat)) (f : OFace) : FaceOut :=
  if f.locIdx.length = 1 then .dropped
  else if f.norIdx.length = 1 ∨ f.locIdx.length = 2 then .polyline (consecPairs f.locIdx)
  else if f.invalid then
    if 3 < f.locIdx.length then .triangles ((tess f.locIdx).map (triOf f))
    else .dropped
  else .single f

/-- The face parsed from the directive f 1 2 3 1 (positions 0,1,2,0): its
position list repeats index 0, but its cyclic edge keys
(0,0),(0,1),(1,2),(0,2) are pairwise distinct, so the end-of-face re-check
clears the invalid flag. -/
def repeatVertFace : OFace :=
  ⟨[0, 1, 2, 0], [], [], [], none, none, none, faceInvalid [0, 1, 2, 0]⟩

/-- C2 counterexample: repeatVertFace has a repeated position index, yet the
parse-time check leaves it valid and create_mesh emits it as a single
output face. -/
theorem C2_counterexample :
    ¬ List.Nodup [0, 1, 2, 0] ∧
    faceInvalid [0, 1, 2, 0] = false ∧
    processFace (fun _ => []) repeatVertFace = FaceOut.single repeatVertFace := by
  decide

/-- Evaluation of the create_mesh face decision on an invalid polygon that
reached the polygon branch. -/
theorem processFace_invalid_eval (tess : List Nat → List (Nat × Nat × Nat))
    (f : OFace) (h1 : ¬ f.locIdx.length = 1)
    (h2 : ¬ (f.norIdx.length = 1 ∨ f.locIdx.length = 2))
    (hb : f.invalid = true) :
    processFace tess f
      = if 3 < f.locIdx.length then FaceOut.triangles ((tess f.locIdx).map (triOf f))
        else FaceOut.dropped := by
  simp only [processFace]
  rw [if_neg h1, if_neg h2, if_pos hb]

/-- C2 amended: a parsed face actually flagged invalid (repeated position
index AND repeated cyclic edge key) is never emitted as a single face: with
at most 3 position references no triangles are produced (it is dropped, or
handled as a point/polyline), and with more than 3 it is replaced by one
triangle per tessellator triple, each triangle's position references drawn
from the original face's resolved position references. -/
theorem C2_invalid_face_never_single (tess : List Nat → List (Nat × Nat × Nat))
    (f : OFace)
    (hshape : f.norIdx = [] ∨ f.norIdx.length = f.locIdx.length)
    (hflag : f.invalid = faceInvalid f.locIdx)
    (hinv : faceInvalid f.locIdx = true) :
    (∀ g, processFace tess f ≠ FaceOut.single g) ∧
    (f.locIdx.length ≤ 3 → ∀ ts, processFace tess f ≠ FaceOut.triangles ts) ∧
    (3 < f.locIdx.length →
      (∀ t ∈ tess f.locIdx,
        t.1 < f.locIdx.length ∧ t.2.1 < f.locIdx.length ∧ t.2.2 < f.locIdx.length) →
      processFace tess f = FaceOut.triangles ((tess f.locIdx).map (triOf f)) ∧
      ∀ t ∈ tess f.locIdx, ∀ j ∈ (triOf f t).locIdx, j ∈ f.locIdx) := by
  have hb : f.invalid = true := hflag.trans hinv
  refine ⟨?_, ?_, ?_⟩
  · intro g
    by_cases h1 : f.locIdx.length = 1
    · simp [processFace, h1]
    · by_cases h2 : f.norIdx.length = 1 ∨ f.locIdx.length = 2
      · simp only [processFace, if_neg h1, if_pos h2]
        simp
      · rw [processFace_invalid_eval tess f h1 h2 hb]
        split <;> simp
  · intro hle ts
    by_cases h1 : f.locIdx.length = 1
    · simp [processFace, h1]
    · by_cases h2 : f.norIdx.length = 1 ∨ f.locIdx.length = 2
      · simp only [processFace, if_neg h1, if_pos h2]
        simp
      · rw [processFace_invalid_eval tess f h1 h2 hb]
        rw [if_neg (by omega)]
        simp
  · intro hgt htess
    have h1 : ¬ f.locIdx.length = 1 := by omega
    have h2 : ¬ (f.norIdx.length = 1 ∨ f.locIdx.length = 2) := by
      rcases hshape with h | h
      · simp only [h, List.length_nil]
        omega
      · rw [h]
        omega
    constructor
    · rw [processFace_invalid_eval tess f h1 h2 hb, if_pos hgt]
    · intro t ht j hj
      rcases htess t ht with ⟨ht1, ht2, ht3⟩
      simp only [triOf, List.mem_cons, List.not_mem_nil, or_false] at hj
      rcases hj with h | h | h <;>
        · subst h
          rw [List.getD_eq_getElem _ _ (by omega)]
          exact List.getElem_mem _

/-- Witness for C2 amended: the quad with positions 0,1,0,2 repeats both a
vertex and the edge key (0,1), so it is flagged invalid and tessellated. -/
theorem C2_invalid_face_never_single_witness :
    processFace (fun _ => [(0, 1, 2)])
        ⟨[0, 1, 0, 2], [], [], [], none, none, none, faceInvalid [0, 1, 0, 2]⟩
      = FaceOut.triangles [⟨[0, 1, 0], [], [], [], none, none, none, false⟩] := by
  have h := C2_invalid_face_never_single (fun _ => [(0, 1, 2)])
    ⟨[0, 1, 0, 2], [], [], [], none, none, none, faceInvalid [0, 1, 0, 2]⟩
    (Or.inl rfl) rfl (by decide)
  have h3 := (h.2.2 (by decide) (by decide)).1
  rw [h3]
  decide

/-- handle_bw_vec, terminal line: data.append(ast.literal_eval(str_data)[:4]).
The external structured-literal decode of the reassembled bw text is passed
in as its result; on success the decoded list truncated to 4 entries is the
stored value, and a decode failure (ast.literal_eval raising) propagates as
an exception since handle_bw_vec installs no handler. -/
def handleBw (lit : Except Unit (List (Int × ℚ))) : Except Unit (List (Int × ℚ)) :=
  match lit with
  | .error e => .error e
  | .ok l => .ok (l.take 4)

/-- The bw directives of one geometry file in order, each carrying the
decode result of its reassembled literal text.  load's parse loop wraps no
handler around handle_bw_vec, so the first failing directive aborts the
whole parse instead of storing an empty list and continuing. -/
def loadBwDirectives : List (Except Unit (List (Int × ℚ))) → Except Unit (List (List (Int × ℚ)))
| [] => .ok []
| d :: ds =>
  match handleBw d with
  | .error e => .error e
  | .ok w =>
    match loadBwDirectives ds with
    | .error e => .error e
    | .ok rest => .ok (w :: rest)

/-- C3 counterexample: a geometry file whose second bw directive fails
structured-literal decoding.  The import aborts with the exception; the
failing vertex is not stored as an empty weight list and the third bw
directive is never processed. -/
theorem C3_counterexample :
    loadBwDirectives [.ok [((1 : Int), (1 : ℚ))], .error (), .ok [((2 : Int), (1 : ℚ))]]
        = .error () ∧
    loadBwDirectives [.ok [((1 : Int), (1 : ℚ))], .error (), .ok [((2 : Int), (1 : ℚ))]]
        ≠ .ok [[((1 : Int), (1 : ℚ))], [], [((2 : Int), (1 : ℚ))]] := by
  exact ⟨rfl, fun h => Except.noConfusion h⟩

/-- C3 amended: when every bw directive decodes successfully the stored
bone-weight lists are exactly the decoded lists truncated to at most 4
entries; and any bw directive whose text fails decoding makes the whole
parse fail (the exception is uncaught), rather than failing only that
vertex. -/
theorem C3_bw_truncation_and_abort :
    (∀ ls : List (List (Int × ℚ)),
      loadBwDirectives (ls.map Except.ok) = .ok (ls.map (fun l => l.take 4))) ∧
    (∀ (ds : List (Except Unit (List (Int × ℚ)))) (out : List (List (Int × ℚ))),
      loadBwDirectives ds = .ok out → ∀ l ∈ out, l.length ≤ 4) ∧
    (∀ ds1 ds2 : List (Except Unit (List (Int × ℚ))),
      loadBwDirectives (ds1 ++ .error () :: ds2) = .error ()) := by
  refine ⟨?_, ?_, ?_⟩
  · intro ls
    induction ls with
    | nil => rfl
    | cons l ls ih =>
      simp only [List.map_cons, loadBwDirectives, handleBw, ih]
  · intro ds
    induction ds with
    | nil =>
      intro out h l hl
      simp only [loadBwDirectives] at h
      cases h
      simp at hl
    | cons d ds ih =>
      intro out h l hl
      cases d with
      | error e =>
        simp only [loadBwDirectives, handleBw] at h
        exact Except.noConfusion h
      | ok w =>
        simp only [loadBwDirectives, handleBw] at h
        cases hrest : loadBwDirectives ds with
        | error e => rw [hrest] at h; simp at h
        | ok rest =>
          rw [hrest] at h
          simp only [Except.ok.injEq] at h
          subst h
          rcases List.mem_cons.mp hl with h | h
          · subst h
            exact List.length_take_le 4 w
          · exact ih rest hrest l h
  · intro ds1 ds2
    induction ds1 with
    | nil => rfl
    | cons d ds1 ih =>
      cases d with
      | error e => rfl
      | ok w =>
        simp only [List.cons_append, loadBwDirectives, handleBw, List.append_eq, ih]

/-- Witness for C3 amended at concrete inputs. -/
theorem C3_bw_truncation_and_abort_witness :
    loadBwDirectives [Except.ok [((1 : Int), (1 : ℚ)), (2, 1), (3, 1), (4, 1), (5, 1)]]
        = .ok [[((1 : Int), (1 : ℚ)), (2, 1), (3, 1), (4, 1)]] ∧
    [((1 : Int), (1 : ℚ)), (2, 1), (3, 1), (4, 1)].length ≤ 4 := by
  constructor
  · have h := C3_bw_truncation_and_abort.1 [[((1 : Int), (1 : ℚ)), (2, 1), (3, 1), (4, 1), (5, 1)]]
    simpa using h
  · exact C3_bw_truncation_and_abort.2.1
      [Except.ok [((1 : Int), (1 : ℚ)), (2, 1), (3, 1), (4, 1), (5, 1)]]
      [[((1 : Int), (1 : ℚ)), (2, 1), (3, 1), (4, 1)]]
      (by rfl) _ (by simp)

/-- A raw token of a skeleton (.arl) library line.  Python int(token)
succeeds only on integer-shaped text and float(token) on numeric text, so a
token is modelled by which of those shapes it has. -/
inductive Tok
| intTok (n : Int)
| floatTok (q : ℚ)
| strTok (s : String)
deriving DecidableEq

/-- Python int(token): raises (error) unless the token is integer-shaped. -/
def tokToInt : Tok → Except Unit Int
| .intTok n => .ok n
| _ => .error ()

/-- Python float(token): raises (error) unless the token is numeric. -/
def tokToFloat : Tok → Except Unit ℚ
| .intTok n => .ok n
| .floatTok q => .ok q
| .strTok _ => .error ()

/-- Which of the round-robin fields of an .arl block the next line holds
(the read_b_name / read_b_parent / read_b_head flags of create_armatures,
exactly one of which is set at a time once the count was read). -/
inductive ArlPhase
| name
| parent
| head
deriving DecidableEq

/-- Parser state of create_armatures' line loop. -/
structure ArlState where
  count : Option Int
  phase : ArlPhase
  names : List (List Tok)
  parents : List Int
  heads : List (ℚ × ℚ × ℚ)
deriving DecidableEq

def arlInit : ArlState := ⟨none, .name, [], [], []⟩

/-- One non-comment line of an .arl file (create_armatures): while
bone_count is unset (or zero, since Python tests its truthiness) the line
must parse as the integer bone count; afterwards name, integer parent index
and 3-float head lines are consumed in strict round-robin.  Any int()/
float() failure (or a head line with fewer than 3 tokens) raises and is not
caught. -/
def arlStep (st : ArlState) (line : List Tok) : Except Unit ArlState :=
  if st.count.getD 0 = 0 then
    match tokToInt (line.headD (.strTok "")) with
    | .error e => .error e
    | .ok n => .ok { st with count := some n, phase := .name }
  else match st.phase with
  | .name => .ok { st with names := st.names ++ [line], phase := .parent }
  | .parent =>
    match tokToInt (line.headD (.strTok "")) with
    | .error e => .error e
    | .ok p => .ok { st with parents := st.parents ++ [p], phase := .head }
  | .head =>
    match tokToFloat (line.getD 0 (.strTok "")), tokToFloat (line.getD 1 (.strTok "")),
        tokToFloat (line.getD 2 (.strTok "")) with
    | .ok x, .ok y, .ok z => .ok { st with heads := st.heads ++ [(x, y, z)], phase := .name }
    | .error e, _, _ => .error e
    | _, .error e, _ => .error e
    | _, _, .error e => .error e

/-- The line loop of create_armatures from a given state. -/
def parseArlFrom (st : ArlState) : List (List Tok) → Except Unit ArlState
| [] => .ok st
| line :: rest =>
  match arlStep st line with
  | .error e => .error e
  | .ok st2 => parseArlFrom st2 rest

/-- Parsing one existing .arl library file (its stripped, non-comment,
non-blank lines). -/
def parseArl (lines : List (List Tok)) : Except Unit ArlState :=
  parseArlFrom arlInit lines

/-- The library loop of create_armatures over the sorted referenced library
names: a missing file (none) is only reported and skipped, an existing file
is parsed with no exception handler around it. -/
def processArlLibs : List (Option (List (List Tok))) → Except Unit (List ArlState)
| [] => .ok []
| none :: libs => processArlLibs libs
| some content :: libs =>
  match parseArl content with
  | .error e => .error e
  | .ok st =>
    match processArlLibs libs with
    | .error e => .error e
    | .ok rest => .ok (st :: rest)

/-- The armature-library phase of load: by this point the geometry data is
fully parsed; load calls create_armatures with no handler, so a failing
library parse aborts the import (the geometry result is lost), while
missing libraries are merely skipped. -/
def importWithArls {α : Type} (geometry : α) (libs : List (Option (List (List Tok)))) :
    Except Unit (α × List ArlState) :=
  match processArlLibs libs with
  | .error e => .error e
  | .ok arls => .ok (geometry, arls)

/-- C4 counterexample: one referenced skeleton library exists but its first
non-comment line is a non-integer token where the bone count is expected.
The exception from int() propagates and the whole import fails; the
geometry result is not returned without skeletal data as the claim says. -/
theorem C4_counterexample :
    importWithArls (0 : Nat) [some [[Tok.strTok "abc"]]] = .error () ∧
    importWithArls (0 : Nat) [some [[Tok.strTok "abc"]]] ≠ .ok ((0 : Nat), []) := by
  exact ⟨rfl, fun h => Except.noConfusion h⟩

/-- C4 amended: a referenced skeleton library file that does not exist never
aborts the geometry import (it is skipped and the geometry is returned
without skeletal data), but a skeleton library whose block violates the
positional grammar — a non-integer token where the bone count is expected —
raises an uncaught exception that aborts the entire import. -/
theorem C4_missing_lib_skipped_bad_lib_aborts :
    (∀ (α : Type) (g : α) (libs : List (Option (List (List Tok)))),
      (∀ l ∈ libs, l = none) → importWithArls g libs = .ok (g, [])) ∧
    (∀ (s : String) (rest : List (List Tok)),
      parseArl ([Tok.strTok s] :: rest) = .error ()) ∧
    (∀ (α : Type) (g : α) (c : List (List Tok)) (libs : List (Option (List (List Tok)))),
      parseArl c = .error () → importWithArls g (some c :: libs) = .error ()) := by
  refine ⟨?_, ?_, ?_⟩
  · intro α g libs hnone
    have h : processArlLibs libs = .ok [] := by
      induction libs with
      | nil => rfl
      | cons l ls ih =>
        cases l with
        | none =>
          rw [processArlLibs]
          exact ih (fun x hx => hnone x (List.mem_cons_of_mem _ hx))
        | some c =>
          exact absurd (hnone (some c) (List.mem_cons_self _ _)) (by simp)
    simp only [importWithArls, h]
  · intro s rest
    rfl
  · intro α g c libs hc
    simp only [importWithArls, processArlLibs, hc]

/-- Witness for C4 amended at concrete inputs. -/
theorem C4_missing_lib_skipped_bad_lib_aborts_witness :
    importWithArls (7 : Nat) [none] = .ok ((7 : Nat), []) ∧
    parseArl [[Tok.strTok "abc"]] = .error () ∧
    importWithArls (7 : Nat) [some [[Tok.strTok "abc"]], none] = .error () :=
  ⟨C4_missing_lib_skipped_bad_lib_aborts.1 Nat 7 [none] (by simp),
   C4_missing_lib_skipped_bad_lib_aborts.2.1 "abc" [],
   C4_missing_lib_skipped_bad_lib_aborts.2.2 Nat 7 [[Tok.strTok "abc"]] [none]
     (C4_missing_lib_skipped_bad_lib_aborts.2.1 "abc" [])⟩

/-- Whether a face reaches the polygon branch of create_mesh's reverse loop
(it is neither a single-position face nor a polyline). -/
def isPolygonFace (f : OFace) : Bool :=
  !(f.locIdx.length == 1) && !(f.norIdx.length == 1 || f.locIdx.length == 2)

/-- edge_dict.get(edge_key, 0) on an association-list dict. -/
def alGet : List ((Nat × Nat) × Nat) → (Nat × Nat) → Nat
| [], _ => 0
| (k2, n) :: rest, k => if k2 = k then n else alGet rest k

/-- edge_dict[edge_key] = edge_dict.get(edge_key, 0) + 1 (create_mesh,
smoothing-group block): increment the entry, inserting a fresh key at the
end as Python dicts do. -/
def bumpEdge : List ((Nat × Nat) × Nat) → (Nat × Nat) → List ((Nat × Nat) × Nat)
| [], k => [(k, 1)]
| (k2, n) :: rest, k =>
  if k2 = k then (k2, n + 1) :: rest else (k2, n) :: bumpEdge rest k

/-- Record the cyclic edge keys of one face in a group's edge dict. -/
def addFaceEdges (d : List ((Nat × Nat) × Nat)) (poss : List Nat) :
    List ((Nat × Nat) × Nat) :=
  (faceEdgeKeys poss).foldl bumpEdge d

/-- smooth_group_users: one empty edge dict per unique smoothing group. -/
def initGroupDicts (groups : List String) : List (String × List ((Nat × Nat) × Nat)) :=
  groups.map (fun g => (g, []))

/-- smooth_group_users[context_smooth_group]: update the dict of group g in
place.  (load registers every group carried by a face in
unique_smooth_groups, so the entry exists.) -/
def updateGroup : List (String × List ((Nat × Nat) × Nat)) → String → List Nat →
    List (String × List ((Nat × Nat) × Nat))
| [], _, _ => []
| (g2, d) :: rest, g, poss =>
  if g2 = g then (g2, addFaceEdges d poss) :: rest
  else (g2, d) :: updateGroup rest g poss

/-- One face of create_mesh's reverse loop, smoothing part: only faces that
reach the polygon branch and carry a smoothing group contribute usages. -/
def recordFaceEdges (ds : List (String × List ((Nat × Nat) × Nat))) (f : OFace) :
    List (String × List ((Nat × Nat) × Nat)) :=
  if isPolygonFace f then
    match f.sg with
    | some g => updateGroup ds g f.locIdx
    | none => ds
  else ds

/-- The per-group edge-usage dicts after the whole face loop. -/
def buildGroupDicts (groups : List String) (faces : List OFace) :
    List (String × List ((Nat × Nat) × Nat)) :=
  faces.foldl recordFaceEdges (initGroupDicts groups)

/-- The global sharp-edge set (create_mesh, build sharp edges loop): every
key whose usage count is exactly 1 in some group's dict. -/
def sharpEdges (groups : List String) (faces : List OFace) : List (Nat × Nat) :=
  (buildGroupDicts groups faces).flatMap
    (fun gd => (gd.2.filter (fun en => en.2 == 1)).map Prod.fst)

/-- Declarative edge-usage count of an edge key within one smoothing group:
occurrences of the key among the cyclic edge keys of the polygon-branch
faces carrying that group. -/
def edgeUsage (faces : List OFace) (g : String) (e : Nat × Nat) : Nat :=
  ((faces.filter (fun f => isPolygonFace f && f.sg == some g)).map
    (fun f => (faceEdgeKeys f.locIdx).count e)).sum

/-- The group dict of g, built directly from g's own polygon faces. -/
def groupDictSpec (faces : List OFace) (g : String) : List ((Nat × Nat) × Nat) :=
  (faces.filter (fun f => isPolygonFace f && f.sg == some g)).foldl
    (fun d f => addFaceEdges d f.locIdx) []

theorem alGet_bumpEdge_self (d : List ((Nat × Nat) × Nat)) (k : Nat × Nat) :
    alGet (bumpEdge d k) k = alGet d k + 1 := by
  induction d with
  | nil => simp [bumpEdge, alGet]
  | cons p rest ih =>
    obtain ⟨k2, n⟩ := p
    by_cases h2 : k2 = k
    · subst h2
      simp [bumpEdge, alGet]
    · simp [bumpEdge, alGet, h2, ih]

theorem alGet_bumpEdge_ne (d : List ((Nat × Nat) × Nat)) (k e : Nat × Nat)
    (h : e ≠ k) : alGet (bumpEdge d k) e = alGet d e := by
  induction d with
  | nil =>
    have hk : ¬ k = e := fun hh => h hh.symm
    simp [bumpEdge, alGet, hk]
  | cons p rest ih =>
    obtain ⟨k2, n⟩ := p
    by_cases h2 : k2 = k
    · subst h2
      have hk : ¬ k2 = e := fun hh => h hh.symm
      simp [bumpEdge, alGet, hk]
    · simp [bumpEdge, alGet, h2, ih]

theorem alGet_foldl_bumpEdge (ks : List (Nat × Nat)) (d : List ((Nat × Nat) × Nat))
    (e : Nat × Nat) :
    alGet (ks.foldl bumpEdge d) e = alGet d e + ks.count e := by
  induction ks generalizing d with
  | nil => simp
  | cons k ks ih =>
    rw [List.foldl_cons, ih]
    by_cases h : e = k
    · subst h
      rw [alGet_bumpEdge_self, List.count_cons_self]
      omega
    · rw [alGet_bumpEdge_ne d k e h, List.count_cons_of_ne h]

theorem alGet_addFaceEdges (d : List ((Nat × Nat) × Nat)) (poss : List Nat)
    (e : Nat × Nat) :
    alGet (addFaceEdges d poss) e = alGet d e + (faceEdgeKeys poss).count e :=
  alGet_foldl_bumpEdge _ d e

theorem keys_bumpEdge_subset (d : List ((Nat × Nat) × Nat)) (k : Nat × Nat) :
    (bumpEdge d k).map Prod.fst ⊆ d.map Prod.fst ++ [k] := by
  induction d with
  | nil => simp [bumpEdge]
  | cons p rest ih =>
    obtain ⟨k2, n⟩ := p
    by_cases h2 : k2 = k
    · subst h2
      simp only [bumpEdge, if_pos rfl, List.map_cons]
      exact List.subset_append_left _ _
    · simp only [bumpEdge, if_neg h2, List.map_cons, List.cons_append]
      exact List.cons_subset_cons _ ih

theorem nodup_keys_bumpEdge (d : List ((Nat × Nat) × Nat)) (k : Nat × Nat)
    (hd : (d.map Prod.fst).Nodup) : ((bumpEdge d k).map Prod.fst).Nodup := by
  induction d with
  | nil => simp [bumpEdge]
  | cons p rest ih =>
    obtain ⟨k2, n⟩ := p
    simp only [List.map_cons, List.nodup_cons] at hd
    by_cases h2 : k2 = k
    · simp only [bumpEdge, if_pos h2, List.map_cons, List.nodup_cons]
      exact hd
    · simp only [bumpEdge, if_neg h2, List.map_cons, List.nodup_cons]
      refine ⟨?_, ih hd.2⟩
      intro hmem
      have hsub := keys_bumpEdge_subset rest k hmem
      rw [List.mem_append, List.mem_singleton] at hsub
      rcases hsub with h | h
      · exact hd.1 h
      · exact h2 h

theorem nodup_keys_foldl_bumpEdge (ks : List (Nat × Nat))
    (d : List ((Nat × Nat) × Nat)) (hd : (d.map Prod.fst).Nodup) :
    ((ks.foldl bumpEdge d).map Prod.fst).Nodup := by
  induction ks generalizing d with
  | nil => simpa
  | cons k ks ih => exact ih _ (nodup_keys_bumpEdge d k hd)

theorem nodup_keys_groupDictSpec (faces : List OFace) (g : String) :
    ((groupDictSpec faces g).map Prod.fst).Nodup := by
  rw [groupDictSpec]
  generalize faces.filter (fun f => isPolygonFace f && f.sg == some g) = fs
  have h : ∀ (fs : List OFace) (d : List ((Nat × Nat) × Nat)),
      (d.map Prod.fst).Nodup →
      ((fs.foldl (fun d f => addFaceEdges d f.locIdx) d).map Prod.fst).Nodup := by
    intro fs
    induction fs with
    | nil => intro d hd; simpa
    | cons f fs ih =>
      intro d hd
      exact ih _ (nodup_keys_foldl_bumpEdge _ d hd)
  exact h fs [] (by simp)

theorem mem_of_alGet_ne_zero (d : List ((Nat × Nat) × Nat)) (e : Nat × Nat)
    (h : alGet d e ≠ 0) : (e, alGet d e) ∈ d := by
  induction d with
  | nil => simp [alGet] at h
  | cons p rest ih =>
    obtain ⟨k2, n⟩ := p
    by_cases h2 : k2 = e
    · subst h2
      simp only [alGet, if_pos rfl] at h ⊢
      exact List.mem_cons_self _ _
    · simp only [alGet, if_neg h2] at h ⊢
      exact List.mem_cons_of_mem _ (ih h)

theorem alGet_eq_of_mem_nodup (d : List ((Nat × Nat) × Nat)) (e : Nat × Nat) (n : Nat)
    (hd : (d.map Prod.fst).Nodup) (h : (e, n) ∈ d) : alGet d e = n := by
  induction d with
  | nil => simp at h
  | cons p rest ih =>
    obtain ⟨k2, m⟩ := p
    simp only [List.map_cons, List.nodup_cons] at hd
    rcases List.mem_cons.mp h with h | h
    · injection h with h1 h2
      subst h1
      subst h2
      simp [alGet]
    · have hne : k2 ≠ e := by
        intro hh
        subst hh
        exact hd.1 (List.mem_map.mpr ⟨(k2, n), h, rfl⟩)
      simp only [alGet, if_neg hne]
      exact ih hd.2 h

theorem updateGroup_map {K : List String} (F : String → List ((Nat × Nat) × Nat))
    (g : String) (poss : List Nat) (hK : K.Nodup) :
    updateGroup (K.map (fun k => (k, F k))) g poss
      = K.map (fun k => (k, if k = g then addFaceEdges (F k) poss else F k)) := by
  induction K with
  | nil => rfl
  | cons k K ih =>
    simp only [List.nodup_cons] at hK
    by_cases h : k = g
    · subst h
      simp only [List.map_cons, updateGroup]
      split_ifs with h1
      · congr 1
        apply List.map_congr_left
        intro x hx
        have hne : ¬ x = k := fun hh => hK.1 (hh ▸ hx)
        rw [if_neg hne]
      · exact absurd trivial h1
    · simp only [List.map_cons, updateGroup]
      rw [if_neg h, if_neg h, ih hK.2]

theorem buildGroupDicts_eq_spec (groups : List String) (faces : List OFace)
    (hg : groups.Nodup) :
    buildGroupDicts groups faces
      = groups.map (fun g => (g, groupDictSpec faces g)) := by
  induction faces using List.reverseRecOn with
  | nil =>
    simp [buildGroupDicts, initGroupDicts, groupDictSpec]
  | append_singleton xs f ih =>
    rw [buildGroupDicts, List.foldl_append, List.foldl_cons, List.foldl_nil]
    rw [show xs.foldl recordFaceEdges (initGroupDicts groups)
          = buildGroupDicts groups xs from rfl, ih]
    by_cases hpoly : isPolygonFace f
    · cases hsg : f.sg with
      | none =>
        simp only [recordFaceEdges, hpoly, if_true, hsg]
        apply List.map_congr_left
        intro g _
        rw [groupDictSpec, groupDictSpec, List.filter_append]
        have hfil : (List.filter (fun f => isPolygonFace f && f.sg == some g) [f]) = [] := by
          simp [List.filter_cons, hsg]
        rw [hfil, List.append_nil]
      | some g0 =>
        simp only [recordFaceEdges, hpoly, if_true, hsg]
        rw [updateGroup_map _ g0 f.locIdx hg]
        apply List.map_congr_left
        intro g _
        congr 1
        rw [groupDictSpec, groupDictSpec, List.filter_append]
        by_cases hgg : g = g0
        · subst hgg
          have hfil : (List.filter (fun f => isPolygonFace f && f.sg == some g) [f]) = [f] := by
            simp [List.filter_cons, hsg, hpoly]
          rw [hfil, if_pos rfl, List.foldl_append, List.foldl_cons, List.foldl_nil]
        · have hne : (g0 == g) = false :=
            beq_eq_false_iff_ne.mpr (fun hh => hgg hh.symm)
          have hfil : (List.filter (fun f => isPolygonFace f && f.sg == some g) [f]) = [] := by
            simp [List.filter_cons, hsg, hpoly, hne]
          rw [hfil, if_neg hgg, List.append_nil]
    · simp only [recordFaceEdges, hpoly, if_false]
      apply List.map_congr_left
      intro g _
      rw [groupDictSpec, groupDictSpec, List.filter_append]
      have hfil : (List.filter (fun f => isPolygonFace f && f.sg == some g) [f]) = [] := by
        simp [List.filter_cons, hpoly]
      rw [hfil, List.append_nil]

theorem alGet_groupDictSpec (faces : List OFace) (g : String) (e : Nat × Nat) :
    alGet (groupDictSpec faces g) e = edgeUsage faces g e := by
  rw [groupDictSpec, edgeUsage]
  generalize faces.filter (fun f => isPolygonFace f && f.sg == some g) = fs
  have h : ∀ (fs : List OFace) (d : List ((Nat × Nat) × Nat)),
      alGet (fs.foldl (fun d f => addFaceEdges d f.locIdx) d) e
        = alGet d e + (fs.map (fun f => (faceEdgeKeys f.locIdx).count e)).sum := by
    intro fs
    induction fs with
    | nil => intro d; simp
    | cons f fs ih =>
      intro d
      rw [List.foldl_cons, ih, alGet_addFaceEdges]
      simp only [List.map_cons, List.sum_cons]
      omega
  have := h fs []
  simpa [alGet] using this

/-- The faces of the C5 counterexample: one triangle in smoothing group 1
using edge (0,1) once, and two triangles in smoothing group 2 using edge
(0,1) twice. -/
def sgFaces : List OFace :=
  [⟨[0, 1, 2], [], [], [], none, some "1", none, false⟩,
   ⟨[0, 1, 2], [], [], [], none, some "2", none, false⟩,
   ⟨[0, 1, 3], [], [], [], none, some "2", none, false⟩]

/-- C5 counterexample: edge (0,1) has usage count 2 inside smoothing group
2, yet it belongs to the global sharp-edge set (it counts 1 inside group 1
and the sharp set is shared across groups). -/
theorem C5_counterexample :
    edgeUsage sgFaces "2" (0, 1) = 2 ∧ (0, 1) ∈ sharpEdges ["1", "2"] sgFaces := by
  constructor
  · decide
  · decide

/-- C5 amended: an edge belongs to the global sharp-edge set if and only if
there exists a smoothing group in which its usage count is exactly 1; a
count of 2 or more within one group does not keep the edge out of the set
when another group counts it exactly once. -/
theorem C5_sharp_iff (groups : List String) (faces : List OFace)
    (hg : groups.Nodup) (e : Nat × Nat) :
    e ∈ sharpEdges groups faces ↔ ∃ g ∈ groups, edgeUsage faces g e = 1 := by
  rw [sharpEdges, buildGroupDicts_eq_spec groups faces hg]
  rw [List.mem_flatMap]
  constructor
  · rintro ⟨gd, hgd, hmem⟩
    rcases List.mem_map.mp hgd with ⟨g, hgmem, rfl⟩
    rcases List.mem_map.mp hmem with ⟨⟨e2, n⟩, hfil, hfst⟩
    cases hfst
    have hf := List.mem_filter.mp hfil
    have hn : n = 1 := by simpa using hf.2
    subst hn
    refine ⟨g, hgmem, ?_⟩
    rw [← alGet_groupDictSpec]
    exact alGet_eq_of_mem_nodup _ _ _ (nodup_keys_groupDictSpec faces g) hf.1
  · rintro ⟨g, hgmem, husage⟩
    refine ⟨(g, groupDictSpec faces g), List.mem_map.mpr ⟨g, hgmem, rfl⟩, ?_⟩
    have h1 : alGet (groupDictSpec faces g) e = 1 := by
      rw [alGet_groupDictSpec]; exact husage
    have hmem : (e, (1 : Nat)) ∈ groupDictSpec faces g := by
      have := mem_of_alGet_ne_zero (groupDictSpec faces g) e (by omega)
      rwa [h1] at this
    exact List.mem_map.mpr ⟨(e, 1), List.mem_filter.mpr ⟨hmem, by simp⟩, rfl⟩

/-- Witness for C5 amended at concrete inputs. -/
theorem C5_sharp_iff_witness :
    ∃ g ∈ ["1", "2"], edgeUsage sgFaces g (0, 1) = 1 :=
  (C5_sharp_iff ["1", "2"] sgFaces (by decide) (0, 1)).mp (by decide)

/-- First-use-order accumulation: extend acc with each element of l not
already present, in order of first appearance. -/
def firstOccurFrom {α : Type} [DecidableEq α] (acc : List α) (l : List α) : List α :=
  l.foldl (fun a i => if i ∈ a then a else a ++ [i]) acc

/-- Deduplication keeping first occurrences. -/
def firstOccur {α : Type} [DecidableEq α] (l : List α) : List α :=
  firstOccurFrom [] l

/-- One output group of split_mesh: verts_split (recorded as the list of
source global indices, of which the actual vertex list is the image under
verts_loc), faces_split, and the keys of unique_materials_split in
insertion order.  vert_remap is represented by vertsIdx itself: a global
index i is mapped iff i ∈ vertsIdx, and its local index — assigned as
len(verts_split) when first seen and never overwritten — is its position
in vertsIdx. -/
structure SplitGroup where
  vertsIdx : List Nat
  faces : List OFace
  mats : List String
deriving DecidableEq

/-- One position reference of split_mesh's inner loop: a reference already
remapped reuses its local index, a fresh one is assigned local index
len(verts_split) and its vertex is appended. -/
def remapStep (st : List Nat × List Nat) (i : Nat) : List Nat × List Nat :=
  if i ∈ st.1 then (st.1, st.2 ++ [st.1.indexOf i])
  else (st.1 ++ [i], st.2 ++ [st.1.length])

/-- The inner loop of split_mesh over one face's position references. -/
def remapFace (vertsIdx : List Nat) (refs : List Nat) : List Nat × List Nat :=
  refs.foldl remapStep (vertsIdx, [])

/-- Registration of the face's material name in unique_materials_split
(split_mesh: the check sits inside the per-vertex loop, so it runs only
when the face has at least one position reference). -/
def addMat (mats : List String) (m : Option String) (hasRefs : Bool) : List String :=
  match m with
  | none => mats
  | some name => if hasRefs && !(mats.contains name) then mats ++ [name] else mats

/-- Processing one face into its group's state. -/
def splitGroupStep (g : SplitGroup) (f : OFace) : SplitGroup :=
  { vertsIdx := (remapFace g.vertsIdx f.locIdx).1
    faces := g.faces ++ [{ f with locIdx := (remapFace g.vertsIdx f.locIdx).2 }]
    mats := addMat g.mats f.mat (!f.locIdx.isEmpty) }

def emptySplitGroup : SplitGroup := ⟨[], [], []⟩

/-- face_split_dict.setdefault(key, fresh) followed by processing the face:
the dict is an association list in key-first-encounter order, as a Python
dict iterates. -/
def updateSplit : List (Option String × SplitGroup) → OFace → List (Option String × SplitGroup)
| [], f => [(f.obj, splitGroupStep emptySplitGroup f)]
| (k, g) :: rest, f =>
  if k = f.obj then (k, splitGroupStep g f) :: rest
  else (k, g) :: updateSplit rest f

/-- The SPLIT_OB_OR_GROUP branch of split_mesh: fold every face into the
group keyed by its object/group name (face item 6).  The oldkey caching in
the source is observationally a dict lookup per face. -/
def splitMesh (faces : List OFace) : List (Option String × SplitGroup) :=
  faces.foldl updateSplit []

/-- The faces belonging to one key, in input order. -/
def groupFacesSpec (faces : List OFace) (k : Option String) : List OFace :=
  faces.filter (fun f => f.obj == k)

/-- The global indices referenced by a key's faces, in first-use order. -/
def groupVertsSpec (faces : List OFace) (k : Option String) : List Nat :=
  firstOccur ((groupFacesSpec faces k).flatMap (fun f => f.locIdx))

/-- The first-use-wins remap: a global index goes to its position in the
first-use list. -/
def remapSpec (V : List Nat) (refs : List Nat) : List Nat :=
  refs.map (fun i => V.indexOf i)

/-- The material names used by a key's faces (those with at least one
position reference), deduplicated in first-use order. -/
def groupMatsSpec (faces : List OFace) (k : Option String) : List String :=
  firstOccur
    (((groupFacesSpec faces k).filter (fun f => !f.locIdx.isEmpty)).filterMap
      (fun f => f.mat))

/-- The declarative description of one output group. -/
def specGroup (faces : List OFace) (k : Option String) : SplitGroup :=
  ⟨groupVertsSpec faces k,
   (groupFacesSpec faces k).map
     (fun f => { f with locIdx := remapSpec (groupVertsSpec faces k) f.locIdx }),
   groupMatsSpec faces k⟩

/-- The declarative description of split_mesh's output. -/
def splitSpec (faces : List OFace) : List (Option String × SplitGroup) :=
  (firstOccur (faces.map (fun f => f.obj))).map (fun k => (k, specGroup faces k))

theorem firstOccurFrom_nil {α : Type} [DecidableEq α] (acc : List α) :
    firstOccurFrom acc [] = acc := rfl

theorem firstOccurFrom_cons_mem {α : Type} [DecidableEq α] {acc : List α} {i : α}
    (l : List α) (h : i ∈ acc) :
    firstOccurFrom acc (i :: l) = firstOccurFrom acc l := by
  simp [firstOccurFrom, h]

theorem firstOccurFrom_cons_not_mem {α : Type} [DecidableEq α] {acc : List α} {i : α}
    (l : List α) (h : i ∉ acc) :
    firstOccurFrom acc (i :: l) = firstOccurFrom (acc ++ [i]) l := by
  simp [firstOccurFrom, h]

theorem firstOccurFrom_append {α : Type} [DecidableEq α] (acc : List α)
    (l1 l2 : List α) :
    firstOccurFrom acc (l1 ++ l2) = firstOccurFrom (firstOccurFrom acc l1) l2 := by
  simp [firstOccurFrom, List.foldl_append]

theorem mem_firstOccurFrom {α : Type} [DecidableEq α] (l : List α) (acc : List α)
    (x : α) : x ∈ firstOccurFrom acc l ↔ x ∈ acc ∨ x ∈ l := by
  induction l generalizing acc with
  | nil => simp [firstOccurFrom_nil]
  | cons i l ih =>
    by_cases h : i ∈ acc
    · rw [firstOccurFrom_cons_mem l h, ih]
      constructor
      · rintro (hx | hx)
        · exact Or.inl hx
        · exact Or.inr (List.mem_cons_of_mem _ hx)
      · rintro (hx | hx)
        · exact Or.inl hx
        · rcases List.mem_cons.mp hx with hx | hx
          · exact Or.inl (hx ▸ h)
          · exact Or.inr hx
    · rw [firstOccurFrom_cons_not_mem l h, ih]
      simp only [List.mem_append, List.mem_singleton, List.mem_cons]
      tauto

theorem firstOccurFrom_extends {α : Type} [DecidableEq α] (l : List α)
    (acc : List α) : ∃ t, firstOccurFrom acc l = acc ++ t := by
  induction l generalizing acc with
  | nil => exact ⟨[], by simp [firstOccurFrom_nil]⟩
  | cons i l ih =>
    by_cases h : i ∈ acc
    · rw [firstOccurFrom_cons_mem l h]
      exact ih acc
    · rw [firstOccurFrom_cons_not_mem l h]
      rcases ih (acc ++ [i]) with ⟨t, ht⟩
      exact ⟨[i] ++ t, by rw [ht, List.append_assoc]⟩

theorem nodup_firstOccurFrom {α : Type} [DecidableEq α] (l : List α)
    (acc : List α) (h : acc.Nodup) : (firstOccurFrom acc l).Nodup := by
  induction l generalizing acc with
  | nil => simpa [firstOccurFrom_nil]
  | cons i l ih =>
    by_cases hm : i ∈ acc
    · rw [firstOccurFrom_cons_mem l hm]
      exact ih acc h
    · rw [firstOccurFrom_cons_not_mem l hm]
      refine ih _ ?_
      rw [List.nodup_append]
      exact ⟨h, List.nodup_singleton i, by simpa using hm⟩

theorem remapStep_mem {V acc : List Nat} {i : Nat} (h : i ∈ V) :
    remapStep (V, acc) i = (V, acc ++ [V.indexOf i]) := by
  simp [remapStep, h]

theorem remapStep_not_mem {V acc : List Nat} {i : Nat} (h : i ∉ V) :
    remapStep (V, acc) i = (V ++ [i], acc ++ [V.length]) := by
  simp [remapStep, h]

theorem foldl_remapStep_fst (refs : List Nat) (V acc : List Nat) :
    (refs.foldl remapStep (V, acc)).1 = firstOccurFrom V refs := by
  induction refs generalizing V acc with
  | nil => rfl
  | cons i refs ih =>
    by_cases h : i ∈ V
    · rw [List.foldl_cons, remapStep_mem h, ih, firstOccurFrom_cons_mem refs h]
    · rw [List.foldl_cons, remapStep_not_mem h, ih, firstOccurFrom_cons_not_mem refs h]

theorem remapFace_fst (refs : List Nat) (V : List Nat) :
    (remapFace V refs).1 = firstOccurFrom V refs :=
  foldl_remapStep_fst refs V []

theorem foldl_remapStep_snd (refs : List Nat) (V acc : List Nat) :
    (refs.foldl remapStep (V, acc)).2
      = acc ++ remapSpec (firstOccurFrom V refs) refs := by
  induction refs generalizing V acc with
  | nil => simp [remapSpec, firstOccurFrom_nil]
  | cons i refs ih =>
    by_cases h : i ∈ V
    · rw [List.foldl_cons, remapStep_mem h, ih, firstOccurFrom_cons_mem refs h]
      have hidx : (firstOccurFrom V refs).indexOf i = V.indexOf i := by
        rcases firstOccurFrom_extends refs V with ⟨t, ht⟩
        rw [ht, List.indexOf_append_of_mem h]
      simp only [remapSpec, List.map_cons, hidx, List.append_assoc]
      rfl
    · rw [List.foldl_cons, remapStep_not_mem h, ih, firstOccurFrom_cons_not_mem refs h]
      have hidx : (firstOccurFrom (V ++ [i]) refs).indexOf i = V.length := by
        rcases firstOccurFrom_extends refs (V ++ [i]) with ⟨t, ht⟩
        rw [ht, List.append_assoc, List.indexOf_append_of_not_mem h]
        simp
      simp only [remapSpec, List.map_cons, hidx, List.append_assoc]
      rfl

theorem remapFace_snd (refs : List Nat) (V : List Nat) :
    (remapFace V refs).2 = remapSpec (firstOccurFrom V refs) refs := by
  simpa using foldl_remapStep_snd refs V []

/-- The material names one face contributes to unique_materials_split. -/
def matListOf (f : OFace) : List String :=
  if !f.locIdx.isEmpty then f.mat.toList else []

theorem addMat_eq_firstOccurFrom (mats : List String) (f : OFace) :
    addMat mats f.mat (!f.locIdx.isEmpty) = firstOccurFrom mats (matListOf f) := by
  cases hm : f.mat with
  | none =>
    simp [addMat, matListOf, hm, firstOccurFrom_nil]
  | some name =>
    by_cases hr : !f.locIdx.isEmpty
    · by_cases hc : name ∈ mats
      · have : mats.contains name = true := by simpa using hc
        simp [addMat, matListOf, hm, hr, this, Option.toList,
          firstOccurFrom_cons_mem, firstOccurFrom_nil, hc]
      · have : mats.contains name = false := by simpa using hc
        simp only [addMat, matListOf, hm, hr, this, Option.toList, if_true,
          Bool.not_false, Bool.and_true]
        rw [firstOccurFrom_cons_not_mem _ hc, firstOccurFrom_nil]
    · simp only [Bool.not_eq_true] at hr
      simp [addMat, matListOf, hm, hr, firstOccurFrom_nil]

theorem groupFacesSpec_append_one (xs : List OFace) (f : OFace) (k : Option String) :
    groupFacesSpec (xs ++ [f]) k
      = groupFacesSpec xs k ++ if f.obj = k then [f] else [] := by
  by_cases h : f.obj = k
  · simp [groupFacesSpec, List.filter_append, List.filter_cons, h]
  · simp [groupFacesSpec, List.filter_append, List.filter_cons, h]

theorem groupVertsSpec_append_ne (xs : List OFace) (f : OFace) (k : Option String)
    (h : f.obj ≠ k) : groupVertsSpec (xs ++ [f]) k = groupVertsSpec xs k := by
  rw [groupVertsSpec, groupVertsSpec, groupFacesSpec_append_one, if_neg h,
    List.append_nil]

theorem groupVertsSpec_append_eq (xs : List OFace) (f : OFace) :
    groupVertsSpec (xs ++ [f]) f.obj
      = firstOccurFrom (groupVertsSpec xs f.obj) f.locIdx := by
  rw [groupVertsSpec, groupVertsSpec, groupFacesSpec_append_one, if_pos rfl,
    firstOccur, List.flatMap_append, firstOccurFrom_append]
  simp [firstOccur]

theorem groupMatsSpec_append_ne (xs : List OFace) (f : OFace) (k : Option String)
    (h : f.obj ≠ k) : groupMatsSpec (xs ++ [f]) k = groupMatsSpec xs k := by
  rw [groupMatsSpec, groupMatsSpec, groupFacesSpec_append_one, if_neg h,
    List.append_nil]

theorem groupMatsSpec_append_eq (xs : List OFace) (f : OFace) :
    groupMatsSpec (xs ++ [f]) f.obj
      = firstOccurFrom (groupMatsSpec xs f.obj) (matListOf f) := by
  rw [groupMatsSpec, groupMatsSpec, groupFacesSpec_append_one, if_pos rfl,
    firstOccur, List.filter_append, List.filterMap_append, firstOccurFrom_append]
  congr 1
  · rw [matListOf]
    by_cases hr : !f.locIdx.isEmpty
    · cases hm : f.mat <;> simp [List.filter_cons, List.filterMap_cons, hr, hm, Option.toList]
    · simp only [Bool.not_eq_true] at hr
      simp [List.filter_cons, hr]

theorem specGroup_append_ne (xs : List OFace) (f : OFace) (k : Option String)
    (h : f.obj ≠ k) : specGroup (xs ++ [f]) k = specGroup xs k := by
  rw [specGroup, specGroup, groupFacesSpec_append_one, if_neg h, List.append_nil,
    groupVertsSpec_append_ne xs f k h, groupMatsSpec_append_ne xs f k h]

theorem mem_groupVertsSpec_of_ref (xs : List OFace) (k : Option String)
    {g : OFace} (hg : g ∈ groupFacesSpec xs k) {i : Nat} (hi : i ∈ g.locIdx) :
    i ∈ groupVertsSpec xs k := by
  rw [groupVertsSpec, firstOccur, mem_firstOccurFrom]
  exact Or.inr (List.mem_flatMap.mpr ⟨g, hg, hi⟩)

theorem specGroup_step (xs : List OFace) (f : OFace) :
    splitGroupStep (specGroup xs f.obj) f = specGroup (xs ++ [f]) f.obj := by
  have hV : groupVertsSpec (xs ++ [f]) f.obj
      = firstOccurFrom (groupVertsSpec xs f.obj) f.locIdx :=
    groupVertsSpec_append_eq xs f
  rcases firstOccurFrom_extends f.locIdx (groupVertsSpec xs f.obj) with ⟨t, ht⟩
  simp only [splitGroupStep, specGroup, SplitGroup.mk.injEq]
  refine ⟨?_, ?_, ?_⟩
  · rw [remapFace_fst, hV]
  · rw [groupFacesSpec_append_one, if_pos rfl, List.map_append]
    congr 1
    · apply List.map_congr_left
      intro g hg
      have hre : remapSpec (groupVertsSpec (xs ++ [f]) f.obj) g.locIdx
          = remapSpec (groupVertsSpec xs f.obj) g.locIdx := by
        rw [hV, ht, remapSpec, remapSpec]
        apply List.map_congr_left
        intro i hi
        rw [List.indexOf_append_of_mem (mem_groupVertsSpec_of_ref xs f.obj hg hi)]
      rw [hre]
    · rw [remapFace_snd, hV, List.map_cons, List.map_nil]
  · rw [addMat_eq_firstOccurFrom, groupMatsSpec_append_eq]

theorem specGroup_of_not_mem (xs : List OFace) (k : Option String)
    (h : k ∉ xs.map (fun f => f.obj)) : specGroup xs k = emptySplitGroup := by
  have hfil : groupFacesSpec xs k = [] := by
    rw [groupFacesSpec, List.filter_eq_nil_iff]
    intro g hg
    simp only [beq_iff_eq]
    intro hh
    exact h (List.mem_map.mpr ⟨g, hg, hh⟩)
  rw [specGroup, groupVertsSpec, groupMatsSpec, hfil]
  rfl

theorem updateSplit_cons_eq {k : Option String} {g : SplitGroup}
    {rest : List (Option String × SplitGroup)} {f : OFace} (h : k = f.obj) :
    updateSplit ((k, g) :: rest) f = (k, splitGroupStep g f) :: rest := by
  simp [updateSplit, h]

theorem updateSplit_cons_ne {k : Option String} {g : SplitGroup}
    {rest : List (Option String × SplitGroup)} {f : OFace} (h : ¬ k = f.obj) :
    updateSplit ((k, g) :: rest) f = (k, g) :: updateSplit rest f := by
  simp [updateSplit, h]

theorem updateSplit_map (K : List (Option String)) (G : Option String → SplitGroup)
    (f : OFace) (hK : K.Nodup) :
    updateSplit (K.map (fun k => (k, G k))) f
      = if f.obj ∈ K
        then K.map (fun k => (k, if k = f.obj then splitGroupStep (G k) f else G k))
        else K.map (fun k => (k, G k)) ++ [(f.obj, splitGroupStep emptySplitGroup f)] := by
  induction K with
  | nil => simp [updateSplit]
  | cons k K ih =>
    simp only [List.nodup_cons] at hK
    by_cases h : k = f.obj
    · subst h
      rw [List.map_cons, updateSplit_cons_eq rfl,
        if_pos (List.mem_cons_self _ _), List.map_cons, if_pos rfl]
      congr 1
      apply List.map_congr_left
      intro x hx
      have hne : ¬ x = f.obj := fun hh => hK.1 (hh ▸ hx)
      rw [if_neg hne]
    · rw [List.map_cons, updateSplit_cons_ne h, ih hK.2]
      by_cases hmem : f.obj ∈ K
      · rw [if_pos hmem, if_pos (List.mem_cons_of_mem _ hmem), List.map_cons,
          if_neg h]
      · have hnm : f.obj ∉ k :: K := by
          intro hh
          rcases List.mem_cons.mp hh with hh | hh
          · exact h hh.symm
          · exact hmem hh
        rw [if_neg hmem, if_neg hnm, List.cons_append]

theorem nodup_keys_spec (faces : List OFace) :
    (firstOccur (faces.map (fun f => f.obj))).Nodup :=
  nodup_firstOccurFrom _ [] List.nodup_nil

theorem splitMesh_eq_spec (faces : List OFace) : splitMesh faces = splitSpec faces := by
  induction faces using List.reverseRecOn with
  | nil => rfl
  | append_singleton xs f ih =>
    rw [splitMesh, List.foldl_append, List.foldl_cons, List.foldl_nil,
      show xs.foldl updateSplit [] = splitMesh xs from rfl, ih, splitSpec,
      updateSplit_map _ _ f (nodup_keys_spec xs)]
    have hkeys : firstOccur ((xs ++ [f]).map (fun g => g.obj))
        = firstOccurFrom (firstOccur (xs.map (fun g => g.obj))) [f.obj] := by
      rw [List.map_append, firstOccur, firstOccurFrom_append, List.map_cons, List.map_nil]
      rfl
    by_cases hmem : f.obj ∈ firstOccur (xs.map (fun g => g.obj))
    · rw [if_pos hmem, splitSpec, hkeys, firstOccurFrom_cons_mem _ hmem,
        firstOccurFrom_nil]
      apply List.map_congr_left
      intro k hk
      by_cases h : k = f.obj
      · subst h
        rw [if_pos rfl, specGroup_step]
      · rw [if_neg h, specGroup_append_ne xs f k (fun hh => h hh.symm)]
    · rw [if_neg hmem, splitSpec, hkeys, firstOccurFrom_cons_not_mem _ hmem,
        firstOccurFrom_nil, List.map_append, List.map_cons, List.map_nil]
      congr 1
      · apply List.map_congr_left
        intro k hk
        rw [specGroup_append_ne xs f k]
        intro hh
        exact hmem (hh ▸ hk)
      · have hempty : specGroup xs f.obj = emptySplitGroup := by
          apply specGroup_of_not_mem
          intro hh
          exact hmem ((mem_firstOccurFrom _ _ _).mpr (Or.inr hh))
        rw [← hempty, specGroup_step]

theorem sum_indicator_one {K : List (Option String)} {x : Option String}
    (hK : K.Nodup) (hx : x ∈ K) :
    (K.map (fun k => if x = k then 1 else 0)).sum = 1 := by
  induction K with
  | nil => cases hx
  | cons k K ih =>
    simp only [List.nodup_cons] at hK
    rcases List.mem_cons.mp hx with h | h
    · subst h
      simp only [List.map_cons, List.sum_cons]
      have hz : (K.map (fun k2 => if x = k2 then 1 else 0)).sum = 0 := by
        apply List.sum_eq_zero
        intro n hn
        rcases List.mem_map.mp hn with ⟨k2, hk2, rfl⟩
        have hne : ¬ x = k2 := by
          intro hh
          subst hh
          exact hK.1 hk2
        rw [if_neg hne]
      simp [hz]
    · have hne : ¬ x = k := by
        intro hh
        subst hh
        exact hK.1 h
      simp only [List.map_cons, List.sum_cons, if_neg hne, ih hK.2 h]

theorem sum_map_add_distrib {α : Type} (K : List α) (a b : α → Nat) :
    (K.map (fun k => a k + b k)).sum = (K.map a).sum + (K.map b).sum := by
  induction K with
  | nil => rfl
  | cons k K ih =>
    simp only [List.map_cons, List.sum_cons, ih]
    omega

theorem sum_filter_lengths (faces : List OFace) (K : List (Option String))
    (hK : K.Nodup) (hall : ∀ f ∈ faces, f.obj ∈ K) :
    (K.map (fun k => (groupFacesSpec faces k).length)).sum = faces.length := by
  induction faces with
  | nil => simp [groupFacesSpec]
  | cons f fs ih =>
    have hlen : ∀ k ∈ K, (groupFacesSpec (f :: fs) k).length
        = (if f.obj = k then 1 else 0) + (groupFacesSpec fs k).length := by
      intro k _
      rw [groupFacesSpec, groupFacesSpec, List.filter_cons]
      by_cases h : f.obj = k
      · simp [h]
        omega
      · simp [h]
    rw [List.map_congr_left (fun k hk => hlen k hk), sum_map_add_distrib,
      sum_indicator_one hK (hall f (List.mem_cons_self _ _)),
      ih (fun g hg => hall g (List.mem_cons_of_mem _ hg))]
    simp [Nat.add_comm]

/-- C6: for a non-empty validated face list in split mode, split_mesh is a
partition: the output group keys are pairwise distinct (the distinct
object/group names in first-occurrence order), each group's face list is
exactly the input faces carrying its key (in input order, remapped
first-use-wins through the group's first-use vertex list), and the group
sizes sum to the input size, so every face appears in exactly one group.
Within each group the vertex list is duplicate-free and the local indices
referenced by the group's faces are exactly 0..len-1, contiguous from 0. -/
theorem C6_split_partition (faces : List OFace) (_hne : faces ≠ []) :
    ((splitMesh faces).map Prod.fst).Nodup ∧
    (∀ p ∈ splitMesh faces,
      p.2.faces = (groupFacesSpec faces p.1).map
        (fun f => { f with locIdx := remapSpec (groupVertsSpec faces p.1) f.locIdx })) ∧
    ((splitMesh faces).map (fun p => p.2.faces.length)).sum = faces.length ∧
    (∀ p ∈ splitMesh faces,
      p.2.vertsIdx = groupVertsSpec faces p.1 ∧
      p.2.vertsIdx.Nodup ∧
      (∀ n : Nat, n ∈ p.2.faces.flatMap (fun g => g.locIdx) ↔ n < p.2.vertsIdx.length)) := by
  rw [splitMesh_eq_spec]
  refine ⟨?_, ?_, ?_, ?_⟩
  · rw [splitSpec, List.map_map]
    have hid : ((firstOccur (faces.map (fun f => f.obj))).map
        (Prod.fst ∘ fun k => (k, specGroup faces k)))
        = firstOccur (faces.map (fun f => f.obj)) := List.map_id ..
    rw [hid]
    exact nodup_keys_spec faces
  · intro p hp
    rcases List.mem_map.mp hp with ⟨k, _, rfl⟩
    rfl
  · rw [splitSpec, List.map_map]
    have heq : ((firstOccur (faces.map (fun f => f.obj))).map
        ((fun p => p.2.faces.length) ∘ fun k => (k, specGroup faces k)))
        = (firstOccur (faces.map (fun f => f.obj))).map
            (fun k => (groupFacesSpec faces k).length) := by
      apply List.map_congr_left
      intro k _
      simp [specGroup]
    rw [heq]
    apply sum_filter_lengths faces _ (nodup_keys_spec faces)
    intro f hf
    rw [firstOccur, mem_firstOccurFrom]
    exact Or.inr (List.mem_map.mpr ⟨f, hf, rfl⟩)
  · intro p hp
    rcases List.mem_map.mp hp with ⟨k, _, rfl⟩
    refine ⟨rfl, nodup_firstOccurFrom _ [] List.nodup_nil, ?_⟩
    intro n
    have hflat : (specGroup faces k).faces.flatMap (fun g => g.locIdx)
        = ((groupFacesSpec faces k).flatMap (fun g => g.locIdx)).map
            (fun i => (groupVertsSpec faces k).indexOf i) := by
      simp only [specGroup]
      rw [List.flatMap_map, List.map_flatMap]
      rfl
    rw [hflat]
    constructor
    · intro hn
      rcases List.mem_map.mp hn with ⟨i, hi, rfl⟩
      apply List.indexOf_lt_length.mpr
      rw [groupVertsSpec, firstOccur, mem_firstOccurFrom]
      exact Or.inr hi
    · intro hn
      have hnod : ((specGroup faces k).vertsIdx).Nodup :=
        nodup_firstOccurFrom _ [] List.nodup_nil
      have hmem : (specGroup faces k).vertsIdx[n] ∈ (specGroup faces k).vertsIdx :=
        List.getElem_mem hn
      have hidx : ((specGroup faces k).vertsIdx).indexOf
          ((specGroup faces k).vertsIdx[n]) = n :=
        List.indexOf_getElem hnod n hn
      refine List.mem_map.mpr ⟨(specGroup faces k).vertsIdx[n], ?_, hidx⟩
      have := (mem_firstOccurFrom
        ((groupFacesSpec faces k).flatMap (fun g => g.locIdx)) []
        ((specGroup faces k).vertsIdx[n])).mp hmem
      simpa using this

/-- The faces of the C6 witness: two faces of object A and one unnamed. -/
def c6Faces : List OFace :=
  [⟨[0, 1, 2], [], [], [], some "m", none, some "A", false⟩,
   ⟨[2, 3], [], [], [], none, none, none, false⟩,
   ⟨[1, 2, 5], [], [], [], none, none, some "A", false⟩]

/-- Witness for C6 at concrete inputs. -/
theorem C6_split_partition_witness :
    ((splitMesh c6Faces).map Prod.fst).Nodup ∧
    ((splitMesh c6Faces).map (fun p => p.2.faces.length)).sum = c6Faces.length :=
  ⟨(C6_split_partition c6Faces (by simp [c6Faces])).1,
   (C6_split_partition c6Faces (by simp [c6Faces])).2.2.1⟩

/-- The derived shading flags of create_materials: do_ambient starts true,
all others false (reset when a newmtl opens a block). -/
structure IllumFlags where
  ambient : Bool
  highlight : Bool
  reflection : Bool
  transparency : Bool
  glass : Bool
  fresnel : Bool
  raytrace : Bool
deriving DecidableEq

def initIllumFlags : IllumFlags := ⟨true, false, false, false, false, false, false⟩

/-- The illum branch of create_materials: each code only sets flags and no
directive ever resets them before the next newmtl; codes 1, 10 and unknown
codes change nothing. -/
def applyIllum (n : Int) (fl : IllumFlags) : IllumFlags :=
  if n = 0 then { fl with ambient := false }
  else if n = 2 then { fl with highlight := true }
  else if n = 3 then { fl with reflection := true, raytrace := true }
  else if n = 4 then
    { fl with transparency := true, reflection := true, glass := true, raytrace := true }
  else if n = 5 then { fl with reflection := true, fresnel := true, raytrace := true }
  else if n = 6 then { fl with transparency := true, reflection := true, raytrace := true }
  else if n = 7 then
    { fl with transparency := true, reflection := true, fresnel := true, raytrace := true }
  else if n = 8 then { fl with reflection := true }
  else if n = 9 then { fl with transparency := true, reflection := true, glass := true }
  else fl

/-- One directive of a material block, as far as the derived flags go:
only illum directives touch them. -/
inductive MtlDirec
| illum (n : Int)
| other
deriving DecidableEq

def mtlFlagStep (fl : IllumFlags) : MtlDirec → IllumFlags
| .illum n => applyIllum n fl
| .other => fl

/-- The derived flags a material block carries when it is finalized at the
next newmtl. -/
def runBlock (ds : List MtlDirec) : IllumFlags :=
  ds.foldl mtlFlagStep initIllumFlags

/-- The most recently seen illumination code of a block. -/
def lastIllum (ds : List MtlDirec) : Option Int :=
  ds.foldl (fun acc d => match d with | .illum n => some n | .other => acc) none

/-- The flags the spec expects for a pure illum-4 block: transparency,
reflection, glass and raytrace set; ambient still enabled, highlight and
fresnel clear. -/
def illum4Flags : IllumFlags := ⟨true, false, true, true, true, false, true⟩

/-- C7 counterexample: a block reading illum 2 then illum 4 has most recent
illumination code 4, yet highlight — set by illum 2 — is still set at
finalization, because the flags accumulate and are never reset by a later
illum directive. -/
theorem C7_counterexample :
    lastIllum [MtlDirec.illum 2, MtlDirec.illum 4] = some 4 ∧
    (runBlock [MtlDirec.illum 2, MtlDirec.illum 4]).transparency = true ∧
    (runBlock [MtlDirec.illum 2, MtlDirec.illum 4]).highlight = true := by
  refine ⟨rfl, rfl, rfl⟩

theorem runBlock_append (ds : List MtlDirec) (d : MtlDirec) :
    runBlock (ds ++ [d]) = mtlFlagStep (runBlock ds) d := by
  rw [runBlock, runBlock, List.foldl_append, List.foldl_cons, List.foldl_nil]

/-- C7 amended: a material block in which every illumination directive is
illum 4 (and at least one occurs) finalizes with exactly transparency,
reflection, glass and raytrace set, and none of highlight, fresnel or
ambient-disabled.  (A block whose most recent illum is 4 but which saw
other codes earlier can carry additional flags.) -/
theorem C7_illum4_flags (ds : List MtlDirec)
    (hall : ∀ n : Int, MtlDirec.illum n ∈ ds → n = 4)
    (hsome : MtlDirec.illum 4 ∈ ds) :
    runBlock ds = illum4Flags := by
  have haux : ∀ (ds : List MtlDirec), (∀ n : Int, MtlDirec.illum n ∈ ds → n = 4) →
      (runBlock ds = initIllumFlags ∨ runBlock ds = illum4Flags) ∧
      (MtlDirec.illum 4 ∈ ds → runBlock ds = illum4Flags) := by
    intro ds
    induction ds using List.reverseRecOn with
    | nil =>
      intro _
      exact ⟨Or.inl rfl, by intro h; cases h⟩
    | append_singleton xs d ih =>
      intro hall2
      have hxs := ih (fun n hn => hall2 n (List.mem_append_left _ hn))
      rw [runBlock_append]
      cases d with
      | other =>
        refine ⟨hxs.1, ?_⟩
        intro hmem
        rcases List.mem_append.mp hmem with h | h
        · exact hxs.2 h
        · simp at h
      | illum n =>
        have hn4 : n = 4 := hall2 n (List.mem_append_right _ (List.mem_cons_self _ _))
        subst hn4
        have hstep : mtlFlagStep (runBlock xs) (MtlDirec.illum 4) = illum4Flags := by
          rcases hxs.1 with h | h <;> rw [h] <;> rfl
        rw [hstep]
        exact ⟨Or.inr rfl, fun _ => rfl⟩
  exact (haux ds hall).2 hsome

/-- Witness for C7 amended at a concrete input. -/
theorem C7_illum4_flags_witness :
    runBlock [MtlDirec.illum 4] = illum4Flags :=
  C7_illum4_flags [MtlDirec.illum 4]
    (by
      intro n hn
      have h := List.mem_singleton.mp hn
      simpa using h)
    (List.mem_singleton.mpr rfl)

/-- The endpoint (clamped) computation of create_nurbs, given the spline
degree d (deg[0], defaulting to 3 when no deg directive appeared), the
declared curve range and the u parameter values: do_endpoints is computed
only when a range was declared and strictly more than d+1 parameter values
exist, and requires the first d+1 values to match the lower bound and the
last d+1 values the upper bound within absolute tolerance 0.0001. -/
def nurbsEndpoint (d : Int) (curvRange : Option (ℚ × ℚ)) (parmU : List ℚ) : Bool :=
  match curvRange with
  | none => false
  | some r =>
    if (parmU.length : Int) > d + 1 then
      (List.range (d + 1).toNat).all (fun i =>
        decide (|parmU.getD i 0 - r.1| ≤ 1/10000) &&
        decide (|parmU.getD (parmU.length - (i + 1)) 0 - r.2| ≤ 1/10000))
    else false

/-- C8 counterexample: degree 0, declared range (0,0) and the single
parameter value 0.  The first and last degree+1 = 1 values match both
bounds exactly, so the claim says the clamped flag is set; the code
requires strictly more than degree+1 parameter values and leaves the curve
non-clamped. -/
theorem C8_counterexample :
    nurbsEndpoint 0 (some (0, 0)) [(0 : ℚ)] = false ∧
    (∀ i : Nat, i < (0 + 1 : Int).toNat →
      |[(0 : ℚ)].getD i 0 - 0| ≤ 1/10000 ∧
      |[(0 : ℚ)].getD ([(0 : ℚ)].length - (i + 1)) 0 - 0| ≤ 1/10000) := by
  constructor
  · rfl
  · intro i hi
    have h0 : i = 0 := by simp at hi; omega
    subst h0
    norm_num [List.getD]

/-- C8 amended: the clamped flag is set if and only if a range was
declared, the number of parameter values strictly exceeds degree+1, and
the first and last degree+1 parameter values match the lower and upper
bounds within absolute tolerance 0.0001; with exactly degree+1 values the
curve is left non-clamped even when all of them match the bounds. -/
theorem C8_endpoint_iff (d : Int) (r : Option (ℚ × ℚ)) (parmU : List ℚ) :
    nurbsEndpoint d r parmU = true ↔
      ∃ lo hi, r = some (lo, hi) ∧ (parmU.length : Int) > d + 1 ∧
        ∀ i : Nat, i < (d + 1).toNat →
          |parmU.getD i 0 - lo| ≤ 1/10000 ∧
          |parmU.getD (parmU.length - (i + 1)) 0 - hi| ≤ 1/10000 := by
  cases r with
  | none => simp [nurbsEndpoint]
  | some p =>
    obtain ⟨lo, hi⟩ := p
    by_cases hlen : (parmU.length : Int) > d + 1
    · simp only [nurbsEndpoint, if_pos hlen, List.all_eq_true, List.mem_range,
        Bool.and_eq_true, decide_eq_true_eq]
      constructor
      · intro h
        exact ⟨lo, hi, rfl, hlen, fun i hilt => h i hilt⟩
      · rintro ⟨lo2, hi2, heq, -, h⟩
        injection heq with heq
        injection heq with h1 h2
        subst h1
        subst h2
        exact fun i hilt => h i hilt
    · simp only [nurbsEndpoint, if_neg hlen]
      constructor
      · intro h
        cases h
      · rintro ⟨lo2, hi2, heq, hlen2, -⟩
        injection heq with heq
        exact absurd hlen2 hlen

/-- The attribute-writing loop of create_mesh for one face and one
attribute kind (normals, vertex colors or texture coordinates): nothing is
written unless the pool is attached (non-empty) and the face's index list
is non-empty; otherwise, for each (index, loop-index) pair of
zip(face_idxs, loop_indices), the value written at that loop is the pool
entry at the index, with the absent marker replaced by pool index 0. -/
def attrWrites {α : Type} (pool : List α) (dflt : α) (idxs : List (Option Nat))
    (loops : List Nat) : List (Nat × α) :=
  if pool.isEmpty || idxs.isEmpty then []
  else (idxs.zip loops).map (fun p => (p.2, pool.getD (p.1.getD 0) dflt))

/-- C9: whenever the attribute pool is attached and the face's index
sequence is non-empty, every slot holding the absent marker is written
with the attribute value at pool index 0. -/
theorem C9_absent_marker_uses_pool_zero {α : Type} (pool : List α) (dflt : α)
    (idxs : List (Option Nat)) (loops : List Nat)
    (hpool : pool ≠ []) (hidxs : idxs ≠ []) :
    ∀ p ∈ idxs.zip loops, p.1 = none →
      (p.2, pool.getD 0 dflt) ∈ attrWrites pool dflt idxs loops := by
  intro p hp hnone
  rw [attrWrites, if_neg]
  · refine List.mem_map.mpr ⟨p, hp, ?_⟩
    rw [hnone]
    rfl
  · simp [hpool, hidxs]

/-- Witness for C9 at concrete inputs. -/
theorem C9_absent_marker_uses_pool_zero_witness :
    ((6 : Nat), (10 : Nat)) ∈ attrWrites [10, 20] 0 [some 1, none] [5, 6] :=
  C9_absent_marker_uses_pool_zero [10, 20] 0 [some 1, none] [5, 6]
    (by simp) (by simp) (none, 6) (by simp [List.zip]) rfl

/-- line_value (import_obj.py): None for a bare keyword line, the single
value token for a two-token line, or the value tokens joined by single
spaces otherwise. -/
def lineValue (tokens : List String) : Option String :=
  match tokens with
  | [] => none
  | [_] => none
  | [_, v] => some v
  | _ :: rest => some (String.intercalate " " rest)

/-- A directive of the geometry stream, reduced to what matters for
smoothing-group state: an s line (with its full token list), a face line
(with its resolved position references), or anything else. -/
inductive GeoDirec
| sDir (tokens : List String)
| fDir (refs : List Nat)
| other
deriving DecidableEq

/-- The smoothing-relevant parse state of load: the current smoothing
group, the registered unique smoothing groups (dict keys in insertion
order) and the parsed faces. -/
structure SmoothState where
  ctx : Option String
  uniq : List String
  faces : List OFace
deriving DecidableEq

/-- The s and f handling of load's directive loop: when smoothing groups
are enabled, an s line sets the current group to line_value's result, with
the value off mapped to None and any other value registered in
unique_smooth_groups; a face records the current group (material and
object context are held at none here, as C10 does not involve them). -/
def smoothStep (useSmooth : Bool) (st : SmoothState) : GeoDirec → SmoothState
| .sDir tokens =>
  if useSmooth then
    match lineValue tokens with
    | some v =>
      if v = "off" then { st with ctx := none }
      else { st with ctx := some v,
                     uniq := if v ∈ st.uniq then st.uniq else st.uniq ++ [v] }
    | none => { st with ctx := none }
  else st
| .fDir refs =>
  { st with faces := st.faces ++ [⟨refs, [], [], [], none, st.ctx, none, false⟩] }
| .other => st

def runSmooth (useSmooth : Bool) (ds : List GeoDirec) : SmoothState :=
  ds.foldl (smoothStep useSmooth) ⟨none, [], []⟩

theorem smoothStep_ctx_of_not_s (useSmooth : Bool) (st : SmoothState)
    (d : GeoDirec) (h : ∀ t, d ≠ .sDir t) :
    (smoothStep useSmooth st d).ctx = st.ctx := by
  cases d with
  | sDir t => exact absurd rfl (h t)
  | fDir refs => rfl
  | other => rfl

theorem foldl_smoothStep_ctx_of_no_s (useSmooth : Bool) (ds : List GeoDirec)
    (st : SmoothState) (h : ∀ d ∈ ds, ∀ t, d ≠ GeoDirec.sDir t) :
    (ds.foldl (smoothStep useSmooth) st).ctx = st.ctx := by
  induction ds generalizing st with
  | nil => rfl
  | cons d ds ih =>
    rw [List.foldl_cons, ih _ (fun d2 hd2 => h d2 (List.mem_cons_of_mem _ hd2)),
      smoothStep_ctx_of_not_s useSmooth st d (h d (List.mem_cons_self _ _))]

theorem smoothStep_off_ctx (st : SmoothState) (tokens : List String)
    (h : lineValue tokens = none ∨ lineValue tokens = some "off") :
    (smoothStep true st (.sDir tokens)).ctx = none := by
  rcases h with h | h <;> simp [smoothStep, h]

/-- C10: with smoothing groups enabled, (1) an s directive whose value is
off, or an s line with no value token, sets the current smoothing group to
none and every face parsed before the next s directive carries no
smoothing-group reference; (2) a face carrying no smoothing group
contributes nothing to any group's sharp-edge usage counts; (3) an s
directive with any other non-empty value v establishes v as the current
group and registers it in the unique smoothing-group set. -/
theorem C10_s_off_behavior :
    (∀ (d1 d2 : List GeoDirec) (toks : List String) (refs : List Nat),
      (lineValue toks = none ∨ lineValue toks = some "off") →
      (∀ d ∈ d2, ∀ t, d ≠ GeoDirec.sDir t) →
      (runSmooth true (d1 ++ [.sDir toks] ++ d2 ++ [.fDir refs])).faces
        = (runSmooth true (d1 ++ [.sDir toks] ++ d2)).faces
          ++ [⟨refs, [], [], [], none, none, none, false⟩]) ∧
    (∀ (faces : List OFace) (f : OFace),
      f.sg = none →
      ∀ (g : String) (e : Nat × Nat),
        edgeUsage (faces ++ [f]) g e = edgeUsage faces g e) ∧
    (∀ (st : SmoothState) (toks : List String) (v : String),
      lineValue toks = some v → v ≠ "off" →
      (smoothStep true st (.sDir toks)).ctx = some v ∧
      v ∈ (smoothStep true st (.sDir toks)).uniq) := by
  refine ⟨?_, ?_, ?_⟩
  · intro d1 d2 toks refs hoff hnos
    have hctx : (runSmooth true (d1 ++ [.sDir toks] ++ d2)).ctx = none := by
      rw [runSmooth, List.foldl_append, foldl_smoothStep_ctx_of_no_s true d2 _ hnos,
        List.foldl_append, List.foldl_cons, List.foldl_nil]
      exact smoothStep_off_ctx _ toks hoff
    have hsplit : d1 ++ [GeoDirec.sDir toks] ++ d2 ++ [GeoDirec.fDir refs]
        = (d1 ++ [GeoDirec.sDir toks] ++ d2) ++ [GeoDirec.fDir refs] := by
      rw [List.append_assoc (d1 ++ [GeoDirec.sDir toks])]
    rw [hsplit, runSmooth, List.foldl_append, List.foldl_cons, List.foldl_nil]
    rw [show ((d1 ++ [GeoDirec.sDir toks] ++ d2).foldl (smoothStep true) ⟨none, [], []⟩)
          = runSmooth true (d1 ++ [GeoDirec.sDir toks] ++ d2) from rfl]
    rw [show smoothStep true (runSmooth true (d1 ++ [GeoDirec.sDir toks] ++ d2))
            (GeoDirec.fDir refs)
          = { runSmooth true (d1 ++ [GeoDirec.sDir toks] ++ d2) with
              faces := (runSmooth true (d1 ++ [GeoDirec.sDir toks] ++ d2)).faces
                ++ [⟨refs, [], [], [], none,
                     (runSmooth true (d1 ++ [GeoDirec.sDir toks] ++ d2)).ctx,
                     none, false⟩] } from rfl]
    rw [hctx]
  · intro faces f hsg g e
    rw [edgeUsage, edgeUsage, List.filter_append]
    have hfil : List.filter (fun f2 => isPolygonFace f2 && f2.sg == some g) [f] = [] := by
      simp [List.filter_cons, hsg]
    rw [hfil, List.append_nil]
  · intro st toks v hv hvoff
    simp only [smoothStep, hv, if_pos rfl, if_neg hvoff]
    refine ⟨rfl, ?_⟩
    by_cases h : v ∈ st.uniq
    · simp [h]
    · simp [h]

/-- Witness for C10 at concrete inputs. -/
theorem C10_s_off_behavior_witness :
    (runSmooth true [.sDir ["s", "1"], .sDir ["s", "off"], .fDir [0, 1, 2]]).faces
      = [⟨[0, 1, 2], [], [], [], none, none, none, false⟩] ∧
    edgeUsage ([] ++ [⟨[0, 1, 2], [], [], [], none, none, none, false⟩]) "1" (0, 1)
      = edgeUsage [] "1" (0, 1) ∧
    (smoothStep true ⟨none, [], []⟩ (.sDir ["s", "2"])).ctx = some "2" := by
  refine ⟨?_, ?_, ?_⟩
  · have h := C10_s_off_behavior.1 [.sDir ["s", "1"]] [] ["s", "off"] [0, 1, 2]
      (Or.inr rfl) (by simp)
    simpa using h
  · exact C10_s_off_behavior.2.1 [] ⟨[0, 1, 2], [], [], [], none, none, none, false⟩
      rfl "1" (0, 1)
  · exact (C10_s_off_behavior.2.2 ⟨none, [], []⟩ ["s", "2"] "2" rfl (by decide)).1

end ImportObj
